import Mathlib

/-!
Verification of the outcome weighting engine `dice_set_freqs` from
`leautils.py`.

The Python generator is

    def dice_set_freqs(n, m):
        permutations = factorial(n)
        for outcome in combinations_with_replacement(range(1, m+1), n):
            weight = permutations
            run_len = 0
            prev_roll = None
            for roll in outcome:
                if roll != prev_roll:
                    prev_roll = roll
                    run_len = 0
                run_len = run_len + 1
                if run_len > 1:
                    weight = weight // run_len
            yield outcome, weight

We embed it as a Lean function producing the list of `(outcome, weight)`
pairs in yield order.  Outcomes are lists of naturals, weights naturals,
and `//` is `Nat` floor division, matching Python's nonnegative integers.
-/

/-- One iteration of the inner `for roll in outcome` loop of
`dice_set_freqs`.  The loop state is `(weight, run_len, prev_roll)`,
with `prev_roll : Option Nat` standing for the Python variable that is
initially `None`. -/
def dsfStep (st : Nat × Nat × Option Nat) (roll : Nat) : Nat × Nat × Option Nat :=
  let weight := st.1
  let run_len0 := st.2.1
  let prev_roll0 := st.2.2
  let prev_roll := if some roll = prev_roll0 then prev_roll0 else some roll
  let run_len1 := if some roll = prev_roll0 then run_len0 else 0
  let run_len := run_len1 + 1
  let weight1 := if 1 < run_len then weight / run_len else weight
  (weight1, run_len, prev_roll)

/-- The weight computed by the inner loop of `dice_set_freqs` for a given
outcome: fold `dsfStep` over the outcome starting from
`weight = n!`, `run_len = 0`, `prev_roll = None`. -/
def dice_weight (n : Nat) (outcome : List Nat) : Nat :=
  (outcome.foldl dsfStep (Nat.factorial n, 0, none)).1

/-- `cwrFrom m n lo` is the list of non-decreasing length-`n` sequences
over `{lo, ..., m}`, in lexicographic order: the tail of
`itertools.combinations_with_replacement(range(lo, m+1), n)`'s
enumeration after fixing a lower bound `lo` for the next element. -/
def cwrFrom (m : Nat) : Nat → Nat → List (List Nat)
  | 0, _ => [[]]
  | n + 1, lo => (List.range' lo (m + 1 - lo)).flatMap fun v =>
      (cwrFrom m n v).map (v :: ·)

/-- `itertools.combinations_with_replacement(range(1, m+1), n)`:
all non-decreasing length-`n` sequences over `{1, ..., m}` in
lexicographic order. -/
def combinations_with_replacement (m n : Nat) : List (List Nat) :=
  cwrFrom m n 1

/-- The embedding of the generator `dice_set_freqs(n, m)`: the list of
`(outcome, weight)` pairs in the order they are yielded. -/
def dice_set_freqs (n m : Nat) : List (List Nat × Nat) :=
  (combinations_with_replacement m n).map fun o => (o, dice_weight n o)

/-- The divisor the rest of the inner loop of `dice_set_freqs` applies to
the running weight, when the loop is resumed in state
`run_len = j`, `prev_roll = some p` with the list of remaining rolls as
third argument.  Each step that makes `run_len > 1` contributes its
`run_len` as a factor. -/
def contDiv : Nat → Nat → List Nat → Nat
  | _, _, [] => 1
  | p, j, a :: l =>
      if a = p then (if 1 < j + 1 then j + 1 else 1) * contDiv p (j + 1) l
      else contDiv a 1 l

/-- Lengths of the maximal runs of equal consecutive values, with a
pending run of length `j` for value `p` already in progress. -/
def runLensAux : Nat → Nat → List Nat → List Nat
  | j, _, [] => [j]
  | j, p, a :: l => if a = p then runLensAux (j + 1) p l else j :: runLensAux 1 a l

/-- Lengths of the maximal runs of equal consecutive values of a list. -/
def runLens : List Nat → List Nat
  | [] => []
  | a :: l => runLensAux 1 a l

/-- Modelled from the spec: the one-step weight formula, `N!` divided by
the product of the factorials of the final lengths of the maximal runs of
equal consecutive values. -/
def specWeight (n : Nat) (o : List Nat) : Nat :=
  Nat.factorial n / ((runLens o).map Nat.factorial).prod

/-- The product, over the distinct values of a list, of the factorial of
that value's multiplicity: the denominator `n1! * n2! * ... * nk!` of the
multinomial coefficient. -/
def multProd (o : List Nat) : Nat :=
  ∏ v ∈ o.toFinset, Nat.factorial (o.count v)

/-- All ordered length-`n` tuples over `{1, ..., m}` (the sample space of
`n` distinguishable `m`-sided dice). -/
def tuples (m : Nat) : Nat → List (List Nat)
  | 0 => [[]]
  | n + 1 => (List.range' 1 m).flatMap fun v => (tuples m n).map (v :: ·)

/-- Instrumented version of `dsfStep` that additionally records, in a
Boolean flag, whether every division `weight // run_len` executed so far
was exact (`run_len` divided the weight). -/
def dsfStepChk (st : (Nat × Nat × Option Nat) × Bool) (roll : Nat) :
    (Nat × Nat × Option Nat) × Bool :=
  let weight := st.1.1
  let run_len0 := st.1.2.1
  let prev_roll0 := st.1.2.2
  let prev_roll := if some roll = prev_roll0 then prev_roll0 else some roll
  let run_len1 := if some roll = prev_roll0 then run_len0 else 0
  let run_len := run_len1 + 1
  let ok := st.2 && (if 1 < run_len then decide (run_len ∣ weight) else true)
  let weight1 := if 1 < run_len then weight / run_len else weight
  ((weight1, run_len, prev_roll), ok)

/-- `divOk n o` is `true` exactly when every floor division executed by
the inner loop of `dice_set_freqs` on outcome `o` is exact. -/
def divOk (n : Nat) (o : List Nat) : Bool :=
  (o.foldl dsfStepChk ((Nat.factorial n, 0, none), true)).2

/-! ### The inner loop computes `n! / contDiv` -/

theorem foldl_dsfStep (l : List Nat) : ∀ (p j w : Nat),
    (l.foldl dsfStep (w, j, some p)).1 = w / contDiv p j l := by
  induction l with
  | nil => intro p j w; simp [contDiv]
  | cons a l ih =>
      intro p j w
      by_cases h : a = p
      · subst h
        rcases Nat.eq_zero_or_pos j with hj | hj
        · subst hj
          have hs : dsfStep (w, 0, some a) a = (w, 1, some a) := by
            simp [dsfStep]
          have e2 : contDiv a 0 (a :: l) = contDiv a 1 l := by
            simp [contDiv]
          rw [List.foldl_cons, hs, ih, e2]
        · have h1 : 1 < j + 1 := by omega
          have hs : dsfStep (w, j, some a) a = (w / (j + 1), j + 1, some a) := by
            simp [dsfStep, h1]
          have e2 : contDiv a j (a :: l) = (j + 1) * contDiv a (j + 1) l := by
            simp [contDiv, h1]
          rw [List.foldl_cons, hs, ih, e2, Nat.div_div_eq_div_mul]
      · have hs : dsfStep (w, j, some p) a = (w, 1, some a) := by
          simp [dsfStep, h]
        have e2 : contDiv p j (a :: l) = contDiv a 1 l := by
          simp [contDiv, h]
        rw [List.foldl_cons, hs, ih, e2]

theorem dice_weight_nil (n : Nat) : dice_weight n [] = Nat.factorial n := rfl

theorem dice_weight_cons (n a : Nat) (l : List Nat) :
    dice_weight n (a :: l) = Nat.factorial n / contDiv a 1 l := by
  have : dsfStep (Nat.factorial n, 0, none) a = (Nat.factorial n, 1, some a) := by
    simp [dsfStep]
  rw [dice_weight, List.foldl_cons, this, foldl_dsfStep]

/-! ### `contDiv` is the product of run-length factorials -/

theorem prodFact_runLensAux (l : List Nat) : ∀ (p j : Nat),
    ((runLensAux j p l).map Nat.factorial).prod = Nat.factorial j * contDiv p j l := by
  induction l with
  | nil => intro p j; simp [runLensAux, contDiv]
  | cons a l ih =>
      intro p j
      by_cases h : a = p
      · subst h
        have hfac : Nat.factorial j * (if 1 < j + 1 then j + 1 else 1) =
            Nat.factorial (j + 1) := by
          rcases Nat.eq_zero_or_pos j with hj | hj
          · subst hj; norm_num [Nat.factorial]
          · have h1 : 1 < j + 1 := by omega
            rw [if_pos h1, Nat.factorial_succ, Nat.mul_comm]
        have e1 : runLensAux j a (a :: l) = runLensAux (j + 1) a l := by
          simp [runLensAux]
        have e2 : contDiv a j (a :: l) =
            (if 1 < j + 1 then j + 1 else 1) * contDiv a (j + 1) l := by
          simp [contDiv]
        rw [e1, e2, ih, ← Nat.mul_assoc, hfac]
      · have e1 : runLensAux j p (a :: l) = j :: runLensAux 1 a l := by
          simp [runLensAux, h]
        have e2 : contDiv p j (a :: l) = contDiv a 1 l := by
          simp [contDiv, h]
        rw [e1, e2, List.map_cons, List.prod_cons, ih]
        rw [Nat.factorial_one, Nat.one_mul]

theorem prodFact_runLens_cons (a : Nat) (l : List Nat) :
    ((runLens (a :: l)).map Nat.factorial).prod = contDiv a 1 l := by
  rw [runLens, prodFact_runLensAux]
  simp [Nat.factorial]

theorem dice_weight_eq_specWeight (n : Nat) (o : List Nat) :
    dice_weight n o = specWeight n o := by
  cases o with
  | nil => simp [dice_weight_nil, specWeight, runLens]
  | cons a l => rw [dice_weight_cons, specWeight, prodFact_runLens_cons]

/-! ### For sorted lists, run lengths are value multiplicities -/

theorem prodFact_runLensAux_sorted (l : List Nat) : ∀ (a j : Nat),
    List.Sorted (· ≤ ·) (a :: l) →
    ((runLensAux j a l).map Nat.factorial).prod =
      Nat.factorial (j + l.count a) *
        ∏ v ∈ l.toFinset.erase a, Nat.factorial (l.count v) := by
  induction l with
  | nil => intro a j _; simp [runLensAux]
  | cons b l ih =>
      intro a j hs
      rw [List.sorted_cons] at hs
      obtain ⟨hab, hbs⟩ := hs
      have hab1 : a ≤ b := hab b (by simp)
      by_cases h : b = a
      · subst h
        have e1 : runLensAux j b (b :: l) = runLensAux (j + 1) b l := by
          simp [runLensAux]
        rw [e1, ih b (j + 1) hbs]
        have ec : (b :: l).count b = l.count b + 1 := by
          simp [List.count_cons]
        have ef : (b :: l).toFinset.erase b = l.toFinset.erase b := by
          simp [List.toFinset_cons, Finset.erase_insert_eq_erase]
        rw [ec, ef]
        have harg : j + 1 + l.count b = j + (l.count b + 1) := by omega
        rw [harg]
        refine congrArg (Nat.factorial (j + (l.count b + 1)) * ·) ?_
        refine Finset.prod_congr rfl ?_
        intro v hv
        have hvb : v ≠ b := Finset.ne_of_mem_erase hv
        rw [List.count_cons_of_ne hvb]
      · have e1 : runLensAux j a (b :: l) = j :: runLensAux 1 b l := by
          simp [runLensAux, h]
        have hlt : a < b := lt_of_le_of_ne hab1 (fun e => h e.symm)
        have hanotin : a ∉ b :: l := by
          intro hmem
          rcases List.mem_cons.mp hmem with he | hm
          · exact absurd he.symm h
          · have hba := List.rel_of_sorted_cons hbs a hm
            omega
        have hca : (b :: l).count a = 0 := List.count_eq_zero.mpr hanotin
        rw [e1, List.map_cons, List.prod_cons, ih b 1 hbs, hca]
        have hfs : (b :: l).toFinset.erase a = insert b l.toFinset := by
          rw [List.toFinset_cons]
          exact Finset.erase_eq_of_not_mem (by simpa using hanotin)
        rw [hfs]
        have hmem : b ∈ insert b l.toFinset := Finset.mem_insert_self b _
        rw [← Finset.mul_prod_erase (insert b l.toFinset)
          (fun v => Nat.factorial ((b :: l).count v)) hmem]
        have ecb : (b :: l).count b = 1 + l.count b := by
          simp [List.count_cons, Nat.add_comm]
        rw [ecb, Finset.erase_insert_eq_erase]
        have hprod : ∏ v ∈ l.toFinset.erase b, Nat.factorial ((b :: l).count v) =
            ∏ v ∈ l.toFinset.erase b, Nat.factorial (l.count v) := by
          refine Finset.prod_congr rfl ?_
          intro v hv
          rw [List.count_cons_of_ne (Finset.ne_of_mem_erase hv)]
        rw [hprod, Nat.add_zero, ← Nat.mul_assoc]

theorem prodFact_runLens_sorted (o : List Nat) (hs : List.Sorted (· ≤ ·) o) :
    ((runLens o).map Nat.factorial).prod = multProd o := by
  cases o with
  | nil => simp [runLens, multProd]
  | cons a l =>
      rw [runLens, prodFact_runLensAux_sorted l a 1 hs, multProd]
      rw [List.toFinset_cons]
      have hmem : a ∈ insert a l.toFinset := Finset.mem_insert_self a _
      rw [← Finset.mul_prod_erase (insert a l.toFinset)
        (fun v => Nat.factorial ((a :: l).count v)) hmem]
      have eca : (a :: l).count a = 1 + l.count a := by
        simp [List.count_cons, Nat.add_comm]
      rw [eca, Finset.erase_insert_eq_erase]
      have hprod : ∏ v ∈ l.toFinset.erase a, Nat.factorial ((a :: l).count v) =
          ∏ v ∈ l.toFinset.erase a, Nat.factorial (l.count v) := by
        refine Finset.prod_congr rfl ?_
        intro v hv
        rw [List.count_cons_of_ne (Finset.ne_of_mem_erase hv)]
      rw [hprod]

/-! ### The successive divisors always divide the running weight -/

theorem factorial_mul_contDiv_dvd (l : List Nat) : ∀ (p j : Nat),
    Nat.factorial j * contDiv p j l ∣ Nat.factorial (j + l.length) := by
  induction l with
  | nil => intro p j; simp [contDiv]
  | cons a l ih =>
      intro p j
      by_cases h : a = p
      · subst h
        have e2 : contDiv a j (a :: l) =
            (if 1 < j + 1 then j + 1 else 1) * contDiv a (j + 1) l := by
          simp [contDiv]
        have hfac : Nat.factorial j * (if 1 < j + 1 then j + 1 else 1) =
            Nat.factorial (j + 1) := by
          rcases Nat.eq_zero_or_pos j with hj | hj
          · subst hj; norm_num [Nat.factorial]
          · have h1 : 1 < j + 1 := by omega
            rw [if_pos h1, Nat.factorial_succ, Nat.mul_comm]
        rw [e2, ← Nat.mul_assoc, hfac]
        have harg : j + (a :: l).length = (j + 1) + l.length := by
          simp; omega
        rw [harg]
        exact ih a (j + 1)
      · have e2 : contDiv p j (a :: l) = contDiv a 1 l := by
          simp [contDiv, h]
        rw [e2]
        have h1 : Nat.factorial 1 * contDiv a 1 l ∣ Nat.factorial (1 + l.length) :=
          ih a 1
        rw [Nat.factorial_one, Nat.one_mul] at h1
        have h2 : Nat.factorial j * Nat.factorial (1 + l.length) ∣
            Nat.factorial (j + (1 + l.length)) :=
          Nat.factorial_mul_factorial_dvd_factorial_add _ _
        have harg : j + (a :: l).length = j + (1 + l.length) := by
          simp; omega
        rw [harg]
        exact dvd_trans (Nat.mul_dvd_mul_left (Nat.factorial j) h1) h2

theorem contDiv_dvd_factorial (a : Nat) (l : List Nat) :
    contDiv a 1 l ∣ Nat.factorial (a :: l).length := by
  have h := factorial_mul_contDiv_dvd l a 1
  rw [Nat.factorial_one, Nat.one_mul] at h
  have harg : 1 + l.length = (a :: l).length := by simp; omega
  rwa [harg] at h

/-! ### Membership in the enumeration -/

theorem mem_cwrFrom (m : Nat) : ∀ (n lo : Nat) (o : List Nat),
    o ∈ cwrFrom m n lo ↔
      o.length = n ∧ List.Sorted (· ≤ ·) o ∧ ∀ x ∈ o, lo ≤ x ∧ x ≤ m := by
  intro n
  induction n with
  | zero =>
      intro lo o
      constructor
      · intro h
        simp only [cwrFrom, List.mem_singleton] at h
        subst h
        simp
      · intro ⟨hlen, _, _⟩
        have : o = [] := List.length_eq_zero.mp hlen
        subst this
        simp [cwrFrom]
  | succ n ih =>
      intro lo o
      constructor
      · intro h
        simp only [cwrFrom, List.mem_flatMap, List.mem_map] at h
        obtain ⟨v, hv, o', ho', rfl⟩ := h
        rw [List.mem_range'_1] at hv
        have hvm : v ≤ m := by omega
        rw [ih v o'] at ho'
        obtain ⟨hlen, hsort, hbd⟩ := ho'
        refine ⟨by simp [hlen], ?_, ?_⟩
        · rw [List.sorted_cons]
          exact ⟨fun b hb => (hbd b hb).1, hsort⟩
        · intro x hx
          rcases List.mem_cons.mp hx with rfl | hx
          · exact ⟨hv.1, hvm⟩
          · exact ⟨le_trans hv.1 (hbd x hx).1, (hbd x hx).2⟩
      · intro ⟨hlen, hsort, hbd⟩
        cases o with
        | nil => simp at hlen
        | cons a o' =>
            simp only [cwrFrom, List.mem_flatMap, List.mem_map]
            rw [List.sorted_cons] at hsort
            have hba := hbd a (by simp)
            refine ⟨a, ?_, o', ?_, rfl⟩
            · rw [List.mem_range'_1]
              constructor
              · exact hba.1
              · omega
            · rw [ih a o']
              refine ⟨by simpa using hlen, hsort.2, ?_⟩
              intro x hx
              exact ⟨hsort.1 x hx, (hbd x (by simp [hx])).2⟩

/-! ### The enumeration is strictly increasing in lexicographic order -/

theorem pairwise_flatMap_of {α β : Type} {R : β → β → Prop}
    (l : List α) (f : α → List β)
    (h1 : ∀ a ∈ l, List.Pairwise R (f a))
    (h2 : List.Pairwise (fun a b => ∀ x ∈ f a, ∀ y ∈ f b, R x y) l) :
    List.Pairwise R (l.flatMap f) := by
  induction l with
  | nil => simp
  | cons a l ih =>
      rw [List.flatMap_cons, List.pairwise_append]
      rw [List.pairwise_cons] at h2
      refine ⟨h1 a (by simp), ih (fun b hb => h1 b (by simp [hb])) h2.2, ?_⟩
      intro x hx y hy
      rw [List.mem_flatMap] at hy
      obtain ⟨b, hb, hyb⟩ := hy
      exact h2.1 b hb x hx y hyb

theorem pairwise_lex_cwrFrom (m : Nat) : ∀ (n lo : Nat),
    List.Pairwise (fun a b => List.Lex (· < ·) a b) (cwrFrom m n lo) := by
  intro n
  induction n with
  | zero => intro lo; simp [cwrFrom]
  | succ n ih =>
      intro lo
      refine pairwise_flatMap_of _ _ ?_ ?_
      · intro v _
        rw [List.pairwise_map]
        exact (ih v).imp (fun hx => List.Lex.cons hx)
      · have hr : List.Pairwise (· < ·) (List.range' lo (m + 1 - lo)) :=
          List.pairwise_lt_range' lo (m + 1 - lo)
        refine hr.imp ?_
        intro u v huv x hx y hy
        rw [List.mem_map] at hx hy
        obtain ⟨x', _, rfl⟩ := hx
        obtain ⟨y', _, rfl⟩ := hy
        exact List.Lex.rel huv

theorem lex_lt_irrefl : ∀ (l : List Nat), ¬ List.Lex (· < ·) l l := by
  intro l
  induction l with
  | nil => intro h; cases h
  | cons a l ih =>
      intro h
      cases h with
      | cons h => exact ih h
      | rel h => exact Nat.lt_irrefl a h

theorem nodup_cwrFrom (m n lo : Nat) : (cwrFrom m n lo).Nodup := by
  refine (pairwise_lex_cwrFrom m n lo).imp ?_
  intro a b hab
  intro he
  subst he
  exact lex_lt_irrefl a hab

/-! ### Lengths of the enumerations -/

theorem sum_multichoose_range' (m n : Nat) : ∀ (a lo : Nat), lo + a = m + 1 →
    ((List.range' lo a).map fun v => Nat.multichoose (m + 1 - v) n).sum =
      Nat.multichoose a (n + 1) := by
  intro a
  induction a with
  | zero => intro lo _; simp [Nat.multichoose_zero_succ]
  | succ a ih =>
      intro lo hlo
      rw [List.range'_succ, List.map_cons, List.sum_cons, ih (lo + 1) (by omega)]
      have e1 : m + 1 - lo = a + 1 := by omega
      rw [e1, Nat.multichoose_succ_succ, Nat.add_comm]

theorem length_cwrFrom (m n : Nat) : ∀ (lo : Nat),
    (cwrFrom m n lo).length = Nat.multichoose (m + 1 - lo) n := by
  induction n with
  | zero => intro lo; simp [cwrFrom, Nat.multichoose_zero_right]
  | succ n ih =>
      intro lo
      rw [cwrFrom, List.length_flatMap]
      have e1 : (List.map (List.length ∘ fun v => (cwrFrom m n v).map (v :: ·))
          (List.range' lo (m + 1 - lo))).sum =
          ((List.range' lo (m + 1 - lo)).map
            fun v => Nat.multichoose (m + 1 - v) n).sum := by
        refine congrArg List.sum ?_
        refine List.map_congr_left ?_
        intro v _
        simp [ih v]
      rw [e1]
      by_cases hlo : lo ≤ m + 1
      · exact sum_multichoose_range' m n (m + 1 - lo) lo (by omega)
      · have e2 : m + 1 - lo = 0 := by omega
        rw [e2]
        simp [Nat.multichoose_zero_succ]

theorem length_tuples (m : Nat) : ∀ (n : Nat), (tuples m n).length = m ^ n := by
  intro n
  induction n with
  | zero => simp [tuples]
  | succ n ih =>
      rw [tuples, List.length_flatMap]
      have e1 : (List.map (List.length ∘ fun v => (tuples m n).map (v :: ·))
          (List.range' 1 m)).sum = (List.map (fun _ => m ^ n) (List.range' 1 m)).sum := by
        refine congrArg List.sum ?_
        refine List.map_congr_left ?_
        intro v _
        simp [ih]
      rw [e1, List.map_const', List.sum_replicate, List.length_range', smul_eq_mul]
      rw [Nat.pow_succ, Nat.mul_comm]

theorem mem_tuples (m : Nat) : ∀ (n : Nat) (t : List Nat), t ∈ tuples m n →
    t.length = n ∧ ∀ x ∈ t, 1 ≤ x ∧ x ≤ m := by
  intro n
  induction n with
  | zero =>
      intro t ht
      simp only [tuples, List.mem_singleton] at ht
      subst ht
      simp
  | succ n ih =>
      intro t ht
      simp only [tuples, List.mem_flatMap, List.mem_map] at ht
      obtain ⟨v, hv, t', ht', rfl⟩ := ht
      rw [List.mem_range'_1] at hv
      obtain ⟨hlen, hbd⟩ := ih t' ht'
      refine ⟨by simp [hlen], ?_⟩
      intro x hx
      rcases List.mem_cons.mp hx with rfl | hx
      · omega
      · exact hbd x hx

/-! ### Summation helpers -/

theorem sum_map_ite_eq_count (x : Nat) : ∀ (L : List Nat),
    (L.map fun v => if v = x then 1 else 0).sum = L.count x := by
  intro L
  induction L with
  | nil => simp
  | cons a L ih =>
      rw [List.map_cons, List.sum_cons, ih, List.count_cons]
      by_cases h : a = x
      · subst h
        simp only [if_pos rfl, beq_self_eq_true, if_true]
        omega
      · have h2 : (x == a) = false := beq_eq_false_iff_ne.mpr (fun e => h e.symm)
        simp [h, h2]

theorem sum_count_eq_length (L : List Nat) (hnd : L.Nodup) : ∀ (o : List Nat),
    (∀ x ∈ o, x ∈ L) → (L.map fun v => o.count v).sum = o.length := by
  intro o
  induction o with
  | nil => intro _; simp
  | cons x o ih =>
      intro hbd
      have e1 : (L.map fun v => (x :: o).count v).sum =
          (L.map fun v => o.count v + if v = x then 1 else 0).sum := by
        refine congrArg List.sum ?_
        refine List.map_congr_left ?_
        intro v _
        rw [List.count_cons]
        by_cases h : v = x
        · subst h; simp
        · have h2 : (v == x) = false := beq_eq_false_iff_ne.mpr h
          have h3 : ¬ x = v := fun e => h e.symm
          simp [h, h2, h3]
      rw [e1, List.sum_map_add, ih (fun y hy => hbd y (by simp [hy])),
        sum_map_ite_eq_count, List.count_eq_one_of_mem hnd (hbd x (by simp))]
      simp

theorem sum_map_ite_eq_countP {κ : Type} (q : κ → Bool) : ∀ (ks : List κ),
    (ks.map fun k => if q k then 1 else 0).sum = ks.countP q := by
  intro ks
  induction ks with
  | nil => simp
  | cons a ks ih =>
      rw [List.map_cons, List.sum_cons, ih, List.countP_cons]
      by_cases h : q a
      · simp [h, Nat.add_comm]
      · simp [h]

theorem sum_countP_partition {α κ : Type} (p : α → κ → Bool) : ∀ (l : List α)
    (ks : List κ), (∀ x ∈ l, ks.countP (p x) = 1) →
    (ks.map fun k => l.countP (fun x => p x k)).sum = l.length := by
  intro l
  induction l with
  | nil => intro ks _; simp
  | cons x l ih =>
      intro ks hone
      have e1 : (ks.map fun k => (x :: l).countP (fun y => p y k)).sum =
          (ks.map fun k => l.countP (fun y => p y k) + if p x k then 1 else 0).sum := by
        refine congrArg List.sum ?_
        refine List.map_congr_left ?_
        intro k _
        rw [List.countP_cons]
      rw [e1, List.sum_map_add, ih ks (fun y hy => hone y (by simp [hy])),
        sum_map_ite_eq_countP, hone x (by simp)]
      simp

/-! ### The multinomial denominator under removal of one occurrence -/

theorem count_mul_multProd_erase (o : List Nat) (v : Nat) (hv : v ∈ o) :
    o.count v * multProd (o.erase v) = multProd o := by
  have hsub : (o.erase v).toFinset ⊆ o.toFinset := by
    intro u hu
    rw [List.mem_toFinset] at hu ⊢
    exact (List.erase_sublist v o).subset hu
  have hext : multProd (o.erase v) =
      ∏ u ∈ o.toFinset, Nat.factorial ((o.erase v).count u) := by
    rw [multProd]
    refine Finset.prod_subset hsub ?_
    intro u _ hnu
    rw [List.mem_toFinset] at hnu
    rw [List.count_eq_zero.mpr hnu]
    rfl
  have hvT : v ∈ o.toFinset := List.mem_toFinset.mpr hv
  rw [hext,
    ← Finset.mul_prod_erase o.toFinset (fun u => Nat.factorial ((o.erase v).count u)) hvT,
    multProd,
    ← Finset.mul_prod_erase o.toFinset (fun u => Nat.factorial (o.count u)) hvT]
  have hprod : ∏ u ∈ o.toFinset.erase v, Nat.factorial ((o.erase v).count u) =
      ∏ u ∈ o.toFinset.erase v, Nat.factorial (o.count u) := by
    refine Finset.prod_congr rfl ?_
    intro u hu
    rw [List.count_erase_of_ne (Finset.ne_of_mem_erase hu)]
  have hc : 0 < o.count v := List.count_pos_iff.mpr hv
  rw [List.count_erase_self, hprod, ← Nat.mul_assoc, Nat.mul_factorial_pred hc]

/-! ### The weight is the number of ordered tuples collapsing to the outcome -/

theorem countP_perm_tuples_mul_multProd (m : Nat) : ∀ (n : Nat) (o : List Nat),
    o.length = n → List.Sorted (· ≤ ·) o → (∀ x ∈ o, 1 ≤ x ∧ x ≤ m) →
    ((tuples m n).countP fun t => decide (t.Perm o)) * multProd o =
      Nat.factorial n := by
  intro n
  induction n with
  | zero =>
      intro o hlen _ _
      have : o = [] := List.length_eq_zero.mp hlen
      subst this
      rw [show tuples m 0 = [[]] from rfl]
      decide
  | succ n ih =>
      intro o hlen hsort hbd
      have hpoint : ∀ v ∈ List.range' 1 m,
          (List.countP (fun t => decide (t.Perm o)) ((tuples m n).map (v :: ·))) *
            multProd o = o.count v * Nat.factorial n := by
        intro v _
        rw [List.countP_map]
        by_cases hvo : v ∈ o
        · have e2 : List.countP ((fun t => decide (t.Perm o)) ∘ (v :: ·)) (tuples m n)
              = List.countP (fun t => decide (t.Perm (o.erase v))) (tuples m n) := by
            refine List.countP_congr ?_
            intro t _
            simp only [Function.comp_apply, decide_eq_true_eq]
            rw [List.cons_perm_iff_perm_erase]
            constructor
            · intro hp; exact hp.2
            · intro hp; exact ⟨hvo, hp⟩
          have hihlen : (o.erase v).length = n := by
            rw [List.length_erase_of_mem hvo, hlen]
            omega
          have hihsort : List.Sorted (· ≤ ·) (o.erase v) :=
            List.Pairwise.sublist (List.erase_sublist v o) hsort
          have hihbd : ∀ x ∈ o.erase v, 1 ≤ x ∧ x ≤ m :=
            fun x hx => hbd x ((List.erase_sublist v o).subset hx)
          have hih := ih (o.erase v) hihlen hihsort hihbd
          rw [e2, ← count_mul_multProd_erase o v hvo, Nat.mul_left_comm, hih]
        · have e2 : List.countP ((fun t => decide (t.Perm o)) ∘ (v :: ·)) (tuples m n)
              = 0 := by
            rw [List.countP_eq_zero]
            intro t _
            simp only [Function.comp_apply, decide_eq_true_eq]
            intro hp
            exact hvo (hp.mem_iff.mp (by simp))
          rw [e2, List.count_eq_zero.mpr hvo]
          simp
      rw [show tuples m (n + 1) =
        (List.range' 1 m).flatMap (fun v => (tuples m n).map (v :: ·)) from rfl]
      rw [List.countP_flatMap, ← List.sum_map_mul_right]
      have e3 : (List.map (fun v =>
          (List.countP (fun t => decide (t.Perm o)) ∘
            fun v => (tuples m n).map (v :: ·)) v * multProd o) (List.range' 1 m)).sum =
          ((List.range' 1 m).map fun v => o.count v * Nat.factorial n).sum := by
        refine congrArg List.sum ?_
        refine List.map_congr_left ?_
        intro v hv
        exact hpoint v hv
      rw [e3, List.sum_map_mul_right, sum_count_eq_length (List.range' 1 m)
        (List.nodup_range' 1 m) o ?_, hlen, Nat.factorial_succ]
      intro x hx
      rw [List.mem_range'_1]
      have := hbd x hx
      omega

/-! ### Assembled facts about the weight of a sorted outcome -/

theorem multProd_pos (o : List Nat) : 0 < multProd o :=
  Finset.prod_pos fun v _ => Nat.factorial_pos _

theorem dice_weight_sorted (n : Nat) (o : List Nat)
    (hs : List.Sorted (· ≤ ·) o) :
    dice_weight n o = Nat.factorial n / multProd o := by
  rw [dice_weight_eq_specWeight, specWeight, prodFact_runLens_sorted o hs]

theorem multProd_dvd_factorial_length (o : List Nat)
    (hs : List.Sorted (· ≤ ·) o) : multProd o ∣ Nat.factorial o.length := by
  cases o with
  | nil => simp [multProd]
  | cons a l =>
      rw [← prodFact_runLens_sorted _ hs, prodFact_runLens_cons]
      exact contDiv_dvd_factorial a l

theorem dice_weight_mul_multProd (n : Nat) (o : List Nat) (hlen : o.length = n)
    (hs : List.Sorted (· ≤ ·) o) :
    dice_weight n o * multProd o = Nat.factorial n := by
  rw [dice_weight_sorted n o hs, Nat.div_mul_cancel]
  exact hlen ▸ multProd_dvd_factorial_length o hs

theorem dice_weight_eq_countP (n m : Nat) (o : List Nat) (hlen : o.length = n)
    (hs : List.Sorted (· ≤ ·) o) (hbd : ∀ x ∈ o, 1 ≤ x ∧ x ≤ m) :
    dice_weight n o = (tuples m n).countP fun t => decide (t.Perm o) := by
  have h1 := countP_perm_tuples_mul_multProd m n o hlen hs hbd
  have h2 := dice_weight_mul_multProd n o hlen hs
  exact Nat.eq_of_mul_eq_mul_right (multProd_pos o) (h2.trans h1.symm)

/-! ### Every ordered tuple collapses to exactly one enumerated outcome -/

theorem countP_decide_eq_one_of_nodup {α : Type} [DecidableEq α] (s : α) :
    ∀ (l : List α), l.Nodup → s ∈ l → l.countP (fun o => decide (o = s)) = 1 := by
  intro l
  induction l with
  | nil => intro _ hm; simp at hm
  | cons a l ih =>
      intro hnd hm
      rw [List.nodup_cons] at hnd
      rw [List.countP_cons]
      by_cases h : a = s
      · subst h
        have hz : l.countP (fun o => decide (o = a)) = 0 := by
          rw [List.countP_eq_zero]
          intro x hx
          simp only [decide_eq_true_eq]
          intro he
          exact hnd.1 (he ▸ hx)
        simp [hz]
      · have hms : s ∈ l := by
          rcases List.mem_cons.mp hm with he | hl
          · exact absurd he.symm h
          · exact hl
        rw [ih hnd.2 hms]
        simp [h]

theorem countP_perm_cwr_eq_one (n m : Nat) (t : List Nat) (ht : t ∈ tuples m n) :
    (cwrFrom m n 1).countP (fun o => decide (t.Perm o)) = 1 := by
  obtain ⟨hlen, hbd⟩ := mem_tuples m n t ht
  have hst : (List.insertionSort (· ≤ ·) t).Perm t := List.perm_insertionSort _ t
  have hss : List.Sorted (· ≤ ·) (List.insertionSort (· ≤ ·) t) :=
    List.sorted_insertionSort _ t
  have hmem : List.insertionSort (· ≤ ·) t ∈ cwrFrom m n 1 := by
    rw [mem_cwrFrom]
    refine ⟨by rw [List.length_insertionSort, hlen], hss, ?_⟩
    intro x hx
    exact hbd x (hst.mem_iff.mp hx)
  have hcong : (cwrFrom m n 1).countP (fun o => decide (t.Perm o)) =
      (cwrFrom m n 1).countP (fun o => decide (o = List.insertionSort (· ≤ ·) t)) := by
    refine List.countP_congr ?_
    intro o ho
    simp only [decide_eq_true_eq]
    constructor
    · intro hp
      have hos : List.Sorted (· ≤ ·) o := ((mem_cwrFrom m n 1 o).mp ho).2.1
      exact List.eq_of_perm_of_sorted (hp.symm.trans hst.symm) hos hss
    · intro he
      subst he
      exact hst.symm
  rw [hcong]
  exact countP_decide_eq_one_of_nodup _ _ (nodup_cwrFrom m n 1) hmem

/-! ### The instrumented loop confirms every division is exact -/

theorem foldl_dsfStepChk (l : List Nat) : ∀ (p j w : Nat) (b : Bool),
    contDiv p j l ∣ w → (l.foldl dsfStepChk ((w, j, some p), b)).2 = b := by
  induction l with
  | nil => intro p j w b _; rfl
  | cons a l ih =>
      intro p j w b hdvd
      by_cases h : a = p
      · subst h
        rcases Nat.eq_zero_or_pos j with hj | hj
        · subst hj
          have hs : dsfStepChk ((w, 0, some a), b) a = ((w, 1, some a), b) := by
            simp [dsfStepChk]
          have e2 : contDiv a 0 (a :: l) = contDiv a 1 l := by
            simp [contDiv]
          rw [List.foldl_cons, hs]
          exact ih a 1 w b (e2 ▸ hdvd)
        · have h1 : 1 < j + 1 := by omega
          have e2 : contDiv a j (a :: l) = (j + 1) * contDiv a (j + 1) l := by
            simp [contDiv, h1]
          rw [e2] at hdvd
          have hdiv : (j + 1) ∣ w := dvd_trans (dvd_mul_right _ _) hdvd
          have hs : dsfStepChk ((w, j, some a), b) a =
              ((w / (j + 1), j + 1, some a), b) := by
            simp [dsfStepChk, h1, hdiv]
          rw [List.foldl_cons, hs]
          refine ih a (j + 1) (w / (j + 1)) b ?_
          obtain ⟨k, hk⟩ := hdvd
          rw [hk, Nat.mul_assoc, Nat.mul_div_cancel_left _ (by omega)]
          exact Dvd.intro k rfl
      · have e2 : contDiv p j (a :: l) = contDiv a 1 l := by
          simp [contDiv, h]
        have hs : dsfStepChk ((w, j, some p), b) a = ((w, 1, some a), b) := by
          simp [dsfStepChk, h]
        rw [List.foldl_cons, hs]
        exact ih a 1 w b (e2 ▸ hdvd)

theorem divOk_of_length (n : Nat) (o : List Nat) (hlen : o.length = n) :
    divOk n o = true := by
  cases o with
  | nil => rfl
  | cons a l =>
      have hs : dsfStepChk ((Nat.factorial n, 0, none), true) a =
          ((Nat.factorial n, 1, some a), true) := by
        simp [dsfStepChk]
      rw [divOk, List.foldl_cons, hs]
      refine foldl_dsfStepChk l a 1 (Nat.factorial n) true ?_
      exact hlen ▸ contDiv_dvd_factorial a l

/-! ### The degenerate shape for a single die -/

theorem flatMap_singleton_eq_map {α β : Type} (l : List α) (g : α → β) :
    (l.flatMap fun v => [g v]) = l.map g := by
  induction l with
  | nil => rfl
  | cons a l ih => simp [ih]

theorem dice_weight_single (v : Nat) : dice_weight 1 [v] = 1 := rfl

theorem dice_set_freqs_one_eq (m : Nat) :
    dice_set_freqs 1 m = (List.range' 1 m).map fun v => ([v], 1) := by
  rw [dice_set_freqs, combinations_with_replacement]
  rw [show cwrFrom m 1 1 =
    (List.range' 1 (m + 1 - 1)).flatMap (fun v => (cwrFrom m 0 v).map (v :: ·)) from rfl]
  have e2 : m + 1 - 1 = m := by omega
  rw [e2]
  have e3 : (fun v => (cwrFrom m 0 v).map (v :: ·)) = fun v => [[v]] := rfl
  rw [e3, flatMap_singleton_eq_map (List.range' 1 m) (fun v => [v]), List.map_map]
  rfl

/-! ### The claims -/

/-- C1: for every N ≥ 1 and M ≥ 1, the sum of the weights over all
(outcome, weight) pairs yielded by `dice_set_freqs(N, M)` equals `M^N`
exactly. -/
theorem dice_set_freqs_weight_sum (n m : Nat) (hn : 1 ≤ n) (hm : 1 ≤ m) :
    ((dice_set_freqs n m).map Prod.snd).sum = m ^ n := by
  rw [dice_set_freqs, combinations_with_replacement, List.map_map]
  have e1 : (Prod.snd ∘ fun o => (o, dice_weight n o)) = fun o => dice_weight n o := rfl
  rw [e1]
  have e2 : List.map (fun o => dice_weight n o) (cwrFrom m n 1) =
      List.map (fun o => (tuples m n).countP fun t => decide (t.Perm o))
        (cwrFrom m n 1) := by
    refine List.map_congr_left ?_
    intro o ho
    rw [mem_cwrFrom] at ho
    exact dice_weight_eq_countP n m o ho.1 ho.2.1 ho.2.2
  rw [e2]
  have hpart := sum_countP_partition (fun t o => decide (t.Perm o)) (tuples m n)
    (cwrFrom m n 1) (fun t ht => countP_perm_cwr_eq_one n m t ht)
  rw [length_tuples] at hpart
  exact hpart

theorem dice_set_freqs_weight_sum_witness :
    1 ≤ 2 ∧ 1 ≤ 6 ∧ ((dice_set_freqs 2 6).map Prod.snd).sum = 6 ^ 2 :=
  ⟨by decide, by decide, dice_set_freqs_weight_sum 2 6 (by decide) (by decide)⟩

/-- C2: for every N ≥ 1, M ≥ 1 and every (outcome, weight) pair yielded by
`dice_set_freqs(N, M)`, the weight equals `N!` divided by the product of
the factorials of the multiplicities of the distinct face values of the
outcome, exactly (both in multiplied and in divided form). -/
theorem dice_set_freqs_weight_multinomial (n m : Nat) (hn : 1 ≤ n) (hm : 1 ≤ m) :
    ∀ p ∈ dice_set_freqs n m,
      p.2 * multProd p.1 = Nat.factorial n ∧
        p.2 = Nat.factorial n / multProd p.1 := by
  intro p hp
  rw [dice_set_freqs, List.mem_map] at hp
  obtain ⟨o, ho, rfl⟩ := hp
  rw [combinations_with_replacement, mem_cwrFrom] at ho
  exact ⟨dice_weight_mul_multProd n o ho.1 ho.2.1, dice_weight_sorted n o ho.2.1⟩

theorem dice_set_freqs_weight_multinomial_witness :
    1 ≤ 2 ∧ 1 ≤ 6 ∧ ([1, 2], 2) ∈ dice_set_freqs 2 6 ∧
      (2 * multProd [1, 2] = Nat.factorial 2 ∧
        2 = Nat.factorial 2 / multProd [1, 2]) :=
  ⟨by decide, by decide, by decide,
    dice_set_freqs_weight_multinomial 2 6 (by decide) (by decide)
      ([1, 2], 2) (by decide)⟩

/-- C3: for every N ≥ 1 and M ≥ 1, `dice_set_freqs(N, M)` yields exactly
`C(M+N-1, N)` (outcome, weight) pairs, and no outcome tuple appears more
than once. -/
theorem dice_set_freqs_count_nodup (n m : Nat) (hn : 1 ≤ n) (hm : 1 ≤ m) :
    (dice_set_freqs n m).length = Nat.choose (m + n - 1) n ∧
      ((dice_set_freqs n m).map Prod.fst).Nodup := by
  constructor
  · rw [dice_set_freqs, List.length_map, combinations_with_replacement,
      length_cwrFrom]
    have e1 : m + 1 - 1 = m := by omega
    rw [e1, Nat.multichoose_eq]
  · rw [dice_set_freqs, combinations_with_replacement, List.map_map]
    have e1 : (Prod.fst ∘ fun o => (o, dice_weight n o)) = id := rfl
    rw [e1, List.map_id]
    exact nodup_cwrFrom m n 1

theorem dice_set_freqs_count_nodup_witness :
    1 ≤ 2 ∧ 1 ≤ 6 ∧ ((dice_set_freqs 2 6).length = Nat.choose (6 + 2 - 1) 2 ∧
      ((dice_set_freqs 2 6).map Prod.fst).Nodup) :=
  ⟨by decide, by decide, dice_set_freqs_count_nodup 2 6 (by decide) (by decide)⟩

/-- C4: for every N ≥ 1 and M ≥ 1, every outcome yielded by
`dice_set_freqs(N, M)` is a non-decreasing sequence of N integers in
[1, M], and the outcomes are yielded in non-decreasing (in fact strictly
increasing) lexicographic order. -/
theorem dice_set_freqs_sorted_lex (n m : Nat) (hn : 1 ≤ n) (hm : 1 ≤ m) :
    (∀ p ∈ dice_set_freqs n m, p.1.length = n ∧ List.Sorted (· ≤ ·) p.1 ∧
        ∀ x ∈ p.1, 1 ≤ x ∧ x ≤ m) ∧
      List.Pairwise (fun a b => List.Lex (· < ·) a b ∨ a = b)
        ((dice_set_freqs n m).map Prod.fst) := by
  constructor
  · intro p hp
    rw [dice_set_freqs, List.mem_map] at hp
    obtain ⟨o, ho, rfl⟩ := hp
    rw [combinations_with_replacement, mem_cwrFrom] at ho
    exact ho
  · rw [dice_set_freqs, combinations_with_replacement, List.map_map]
    have e1 : (Prod.fst ∘ fun o => (o, dice_weight n o)) = id := rfl
    rw [e1, List.map_id]
    exact (pairwise_lex_cwrFrom m n 1).imp Or.inl

theorem dice_set_freqs_sorted_lex_witness :
    1 ≤ 2 ∧ 1 ≤ 2 ∧
      ((∀ p ∈ dice_set_freqs 2 2, p.1.length = 2 ∧ List.Sorted (· ≤ ·) p.1 ∧
          ∀ x ∈ p.1, 1 ≤ x ∧ x ≤ 2) ∧
        List.Pairwise (fun a b => List.Lex (· < ·) a b ∨ a = b)
          ((dice_set_freqs 2 2).map Prod.fst)) :=
  ⟨by decide, by decide, dice_set_freqs_sorted_lex 2 2 (by decide) (by decide)⟩

/-- C5: for every N ≥ 1, M ≥ 1 and every outcome yielded by
`dice_set_freqs(N, M)`, the incremental weight computation of the code
(`dice_weight`, reflected in the yielded weight) produces a result
identical to computing `N!` divided by the product of the factorials of
the final lengths of the maximal runs in one step (`specWeight`). -/
theorem dice_set_freqs_incremental_eq_one_step (n m : Nat)
    (hn : 1 ≤ n) (hm : 1 ≤ m) :
    ∀ p ∈ dice_set_freqs n m, p.2 = specWeight n p.1 := by
  intro p hp
  rw [dice_set_freqs, List.mem_map] at hp
  obtain ⟨o, _, rfl⟩ := hp
  exact dice_weight_eq_specWeight n o

theorem dice_set_freqs_incremental_eq_one_step_witness :
    1 ≤ 2 ∧ 1 ≤ 6 ∧ ([1, 2], 2) ∈ dice_set_freqs 2 6 ∧ 2 = specWeight 2 [1, 2] :=
  ⟨by decide, by decide, by decide,
    dice_set_freqs_incremental_eq_one_step 2 6 (by decide) (by decide)
      ([1, 2], 2) (by decide)⟩

/-- C6: for every N ≥ 1, M ≥ 1 and every outcome processed by
`dice_set_freqs(N, M)`, at every step where the code executes
`weight // run_len`, `run_len` divides the current weight exactly: the
instrumented loop `divOk`, which replays the fold and checks divisibility
before each division, returns `true`. -/
theorem dice_set_freqs_divisions_exact (n m : Nat) (hn : 1 ≤ n) (hm : 1 ≤ m) :
    ∀ p ∈ dice_set_freqs n m, divOk n p.1 = true := by
  intro p hp
  rw [dice_set_freqs, List.mem_map] at hp
  obtain ⟨o, ho, rfl⟩ := hp
  rw [combinations_with_replacement, mem_cwrFrom] at ho
  exact divOk_of_length n o ho.1

theorem dice_set_freqs_divisions_exact_witness :
    1 ≤ 3 ∧ 1 ≤ 2 ∧ ([1, 1, 2], 3) ∈ dice_set_freqs 3 2 ∧ divOk 3 [1, 1, 2] = true :=
  ⟨by decide, by decide, by decide,
    dice_set_freqs_divisions_exact 3 2 (by decide) (by decide)
      ([1, 1, 2], 3) (by decide)⟩

/-- C7: `dice_set_freqs(2, 6)` yields exactly 21 pairs; the pair with
outcome (1,1) has weight 1, the pair with outcome (1,2) has weight 2, the
pair with outcome (6,6) has weight 1, and the weights sum to 36. -/
theorem dice_set_freqs_two_six :
    (dice_set_freqs 2 6).length = 21 ∧
      ([1, 1], 1) ∈ dice_set_freqs 2 6 ∧
      ([1, 2], 2) ∈ dice_set_freqs 2 6 ∧
      ([6, 6], 1) ∈ dice_set_freqs 2 6 ∧
      ((dice_set_freqs 2 6).map Prod.snd).sum = 36 := by
  decide

/-- C8: for every M ≥ 1, `dice_set_freqs(1, M)` yields exactly M pairs,
each outcome a singleton, each weight 1, and the weights sum to M. -/
theorem dice_set_freqs_n_one (m : Nat) (hm : 1 ≤ m) :
    (dice_set_freqs 1 m).length = m ∧
      (∀ p ∈ dice_set_freqs 1 m, (∃ v, p.1 = [v]) ∧ p.2 = 1) ∧
      ((dice_set_freqs 1 m).map Prod.snd).sum = m := by
  refine ⟨?_, ?_, ?_⟩
  · rw [dice_set_freqs_one_eq, List.length_map, List.length_range']
  · intro p hp
    rw [dice_set_freqs_one_eq, List.mem_map] at hp
    obtain ⟨v, _, rfl⟩ := hp
    exact ⟨⟨v, rfl⟩, rfl⟩
  · rw [dice_set_freqs_one_eq, List.map_map]
    have e1 : (Prod.snd ∘ fun v => (([v] : List Nat), 1)) = fun _ => (1 : Nat) := rfl
    rw [e1, List.map_const', List.sum_replicate, List.length_range', smul_eq_mul,
      Nat.mul_one]

theorem dice_set_freqs_n_one_witness :
    1 ≤ 6 ∧ ((dice_set_freqs 1 6).length = 6 ∧
      (∀ p ∈ dice_set_freqs 1 6, (∃ v, p.1 = [v]) ∧ p.2 = 1) ∧
      ((dice_set_freqs 1 6).map Prod.snd).sum = 6) :=
  ⟨by decide, dice_set_freqs_n_one 6 (by decide)⟩

/-- C9: two independent invocations of `dice_set_freqs` with the same
arguments produce identical sequences of (outcome, weight) pairs.  The
embedding is a pure function of its arguments, faithfully reflecting that
the generator reads no shared mutable state, so equal arguments give equal
output sequences. -/
theorem dice_set_freqs_deterministic (n m n2 m2 : Nat)
    (hn : n = n2) (hm : m = m2) :
    dice_set_freqs n m = dice_set_freqs n2 m2 := by
  rw [hn, hm]

theorem dice_set_freqs_deterministic_witness :
    2 = 2 ∧ 6 = 6 ∧ dice_set_freqs 2 6 = dice_set_freqs 2 6 :=
  ⟨rfl, rfl, dice_set_freqs_deterministic 2 6 2 6 rfl rfl⟩

/-- C10: for every M ≥ 0, `dice_set_freqs(0, M)` yields exactly one pair,
the empty outcome with weight 1; and for every N ≥ 1, `dice_set_freqs(N, 0)`
yields no pairs at all. -/
theorem dice_set_freqs_degenerate :
    (∀ m, dice_set_freqs 0 m = [([], 1)]) ∧
      ∀ n, 1 ≤ n → dice_set_freqs n 0 = [] := by
  constructor
  · intro m
    rfl
  · intro n hn
    cases n with
    | zero => exact absurd hn (by omega)
    | succ k => rfl

theorem dice_set_freqs_degenerate_witness :
    1 ≤ 3 ∧ dice_set_freqs 0 5 = [([], 1)] ∧ dice_set_freqs 3 0 = [] :=
  ⟨by decide, dice_set_freqs_degenerate.1 5, dice_set_freqs_degenerate.2 3 (by decide)⟩
